import Mathlib

/-!
Verification of the K8sInterpreter execution-dispatch core.

Each definition below is a shallow embedding of one function of the
repository (file and line references in the doc comments).  Machine
integers are modelled as Nat or Int, Python floats as exact rationals,
fallible calls as Except or Option, and external effects (the container
runtime, the filesystem) as explicit function parameters.  The theorems
at the end of the file settle the specification claims against these
embeddings.
-/

namespace K8sInterpreter

/-! ## Health subsystem (src/services/health.py) -/

/-- Health check status enumeration, from class HealthStatus. -/
inductive HealthStatus where
  | healthy
  | unhealthy
  | degraded
  | unknown
deriving DecidableEq

/-- Embedding of HealthCheckService.get_overall_status
(src/services/health.py lines 456-477).  The Python code receives a dict
of per-service results and only inspects the multiset of their statuses,
so the embedding takes the list of child statuses. -/
def get_overall_status (statuses : List HealthStatus) : HealthStatus :=
  if statuses = [] then .unknown
  else if HealthStatus.unhealthy ∈ statuses then .unhealthy
  else if HealthStatus.degraded ∈ statuses then .degraded
  else if statuses.all (fun s => s = .healthy) then .healthy
  else .unknown

/-- Severity rank realising the order unhealthy > degraded > unknown > healthy. -/
def severity : HealthStatus → Nat
  | .unhealthy => 3
  | .degraded => 2
  | .unknown => 1
  | .healthy => 0

/-- Worst status of a list under the severity order (the status of maximal
severity; healthy for the empty list). -/
def worstStatus (statuses : List HealthStatus) : HealthStatus :=
  statuses.foldl (fun a b => if severity a < severity b then b else a) .healthy

/-! ## Pool configuration (src/models/pool.py) -/

/-- The pool-size and warmup fields of the settings object consumed by
PoolConfig.from_settings. -/
structure PoolSettings where
  pod_pool_py : Int
  pod_pool_js : Int
  pod_pool_ts : Int
  pod_pool_go : Int
  pod_pool_java : Int
  pod_pool_c : Int
  pod_pool_cpp : Int
  pod_pool_php : Int
  pod_pool_rs : Int
  pod_pool_r : Int
  pod_pool_f90 : Int
  pod_pool_d : Int
  pod_pool_warmup_on_startup : Bool

/-- Pool configuration record, from dataclass PoolConfig. -/
structure PoolConfig where
  language : String
  size : Int
  warmup_on_startup : Bool
deriving DecidableEq

/-- The pool_sizes dict lookup with default 0, from PoolConfig.from_settings
(src/models/pool.py lines 69-84). -/
def poolSizeFor (s : PoolSettings) (language : String) : Int :=
  if language = "py" then s.pod_pool_py
  else if language = "js" then s.pod_pool_js
  else if language = "ts" then s.pod_pool_ts
  else if language = "go" then s.pod_pool_go
  else if language = "java" then s.pod_pool_java
  else if language = "c" then s.pod_pool_c
  else if language = "cpp" then s.pod_pool_cpp
  else if language = "php" then s.pod_pool_php
  else if language = "rs" then s.pod_pool_rs
  else if language = "r" then s.pod_pool_r
  else if language = "f90" then s.pod_pool_f90
  else if language = "d" then s.pod_pool_d
  else 0

/-- The twelve language tags that carry a pool-size setting. -/
def knownPoolLanguages : List String :=
  ["py", "js", "ts", "go", "java", "c", "cpp", "php", "rs", "r", "f90", "d"]

/-- Embedding of PoolConfig.from_settings (src/models/pool.py lines 63-89). -/
def PoolConfig.from_settings (s : PoolSettings) (language : String) : PoolConfig :=
  let size := poolSizeFor s language
  { language := language
    size := size
    warmup_on_startup := decide (size > 0) && s.pod_pool_warmup_on_startup }

/-! ## CPU statistics (src/services/container/manager.py lines 512-529) -/

/-- The cpu_usage sub-dict of a docker stats sample; missing keys are
modelled as none, mirroring dict.get defaults. -/
structure CpuUsage where
  total_usage : Option Int
  percpu_usage : Option (List Int)

/-- The empty dict produced by cpu_stats.get with default. -/
def CpuUsage.emptyDict : CpuUsage := ⟨none, none⟩

/-- One CPU stats sample (the cpu_stats or precpu_stats dict). -/
structure CpuStats where
  cpu_usage : Option CpuUsage
  system_cpu_usage : Option Int

/-- Total usage read with defaults:
cpu_stats.get("cpu_usage", dict()).get("total_usage", 0). -/
def CpuStats.totalUsage (s : CpuStats) : Int :=
  ((s.cpu_usage.getD .emptyDict).total_usage).getD 0

/-- The percpu_usage list read with default list of one element:
cpu_stats.get("cpu_usage", dict()).get("percpu_usage", single). -/
def CpuStats.percpuList (s : CpuStats) : List Int :=
  ((s.cpu_usage.getD .emptyDict).percpu_usage).getD [1]

/-- Embedding of ContainerManager._calculate_cpu_percent
(src/services/container/manager.py lines 512-529).  Python float
arithmetic is idealised as exact rational arithmetic. -/
def calculate_cpu_percent (cpu_stats precpu_stats : CpuStats) : ℚ :=
  let cpu_delta : Int := cpu_stats.totalUsage - precpu_stats.totalUsage
  let system_delta : Int := (cpu_stats.system_cpu_usage.getD 0) - (precpu_stats.system_cpu_usage.getD 0)
  if 0 < system_delta ∧ 0 < cpu_delta then
    let cpu_count : Nat := cpu_stats.percpuList.length
    ((cpu_delta : ℚ) / (system_delta : ℚ)) * (cpu_count : ℚ) * 100
  else 0

/-! ## Filename sanitization (OutputProcessor.sanitize_filename)

The implementing file src/services/execution/output.py is not part of the
checked sources; only its unit tests are (tests/unit/test_output_processor.py).
The function is therefore modelled from the specification, and checked for
consistency with the expected values recorded in the unit tests.  Strings
are modelled as lists of unicode characters, matching Python str. -/

/-- Characters permitted by the sanitizer character class [A-Za-z0-9._-]. -/
def allowedChar (c : Char) : Bool :=
  ('A' ≤ c && c ≤ 'Z') || ('a' ≤ c && c ≤ 'z') || ('0' ≤ c && c ≤ '9') ||
    c == '.' || c == '_' || c == '-'

/-- Splitting on a separator character, matching Python str.split:
the result is always non-empty and concatenating the pieces with the
separator restores the input. -/
def splitOnChar (sep : Char) (l : List Char) : List (List Char) :=
  l.foldr (fun c acc =>
    match acc with
    | [] => [[c]]
    | cur :: rest => if c = sep then [] :: cur :: rest else (c :: cur) :: rest) [[]]

/-- Basename of a path: the part after the final slash (the spec strips
path components, keeping only the basename). -/
def pathBasename (l : List Char) : List Char :=
  (splitOnChar '/' l).getLastD []

/-- Replace every character outside the permitted class with an underscore. -/
def replaceDisallowed (l : List Char) : List Char :=
  l.map (fun c => if allowedChar c then c else '_')

/-- If the first character is a dot, prefix with an underscore
(prevents hidden files). -/
def fixLeadingDot (l : List Char) : List Char :=
  if l.head? = some '.' then '_' :: l else l

/-- Index of the last dot of the list, if any. -/
def lastDotIdx : List Char → Option Nat
  | [] => none
  | c :: cs =>
    match lastDotIdx cs with
    | some k => some (k + 1)
    | none => if c = '.' then some 0 else none

/-- Modelled from the spec: the over-length branch of the sanitizer, which
the sources do not contain.  A name longer than 255 bytes is truncated to
fit the shape trunc-rand6.ext within 255 bytes, preserving the extension;
the 255-byte ceiling is the binding constraint.  The random six-hex-digit
suffix is passed in as the parameter rand. -/
def truncateWithRand (rand : List Char) (l : List Char) : List Char :=
  if l.length ≤ 255 then l
  else
    match lastDotIdx l with
    | some k =>
      let ext := l.drop (k + 1)
      let keep := 255 - (ext.length + rand.length + 2)
      ((l.take keep) ++ '-' :: rand ++ '.' :: ext).take 255
    | none => ((l.take (255 - (rand.length + 1))) ++ '-' :: rand).take 255

/-- Modelled from the spec: OutputProcessor.sanitize_filename, whose
implementing module is missing from the checked sources (only its unit
tests are present).  None or empty input yields an underscore; otherwise
path components are stripped, characters outside [A-Za-z0-9._-] are
replaced by underscores, a leading dot is prefixed with an underscore, and
over-long names are truncated with a random suffix.  The random suffix is
the parameter rand; a none argument models Python None. -/
def sanitize_filename (rand : List Char) : Option (List Char) → List Char
  | none => ['_']
  | some x =>
    let base := pathBasename x
    if base = [] then ['_']
    else truncateWithRand rand (fixLeadingDot (replaceDisallowed base))

/-- UTF-8 byte length of a character list. -/
def utf8Len (l : List Char) : Nat :=
  (l.map Char.utf8Size).sum

/-! ## Image resolution (src/services/container/manager.py lines 60-115) -/

/-- The language-specific part of a configured image reference:
configured_image.split("/")[-1]. -/
def lastSegmentStr (s : String) : String :=
  String.mk ((splitOnChar '/' s.toList).getLastD s.toList)

/-- The ordered fallback list built by get_image_for_language:
configured image, then local build prefix, then the GHCR prefix. -/
def fallback_images (configured : String) : List String :=
  [configured,
   "code-interpreter/" ++ lastSegmentStr configured,
   "ghcr.io/usnavy13/librecodeinterpreter/" ++ lastSegmentStr configured]

/-- Duplicate removal preserving order, from the seen-set loop of
get_image_for_language (lines 84-89). -/
def dedupKeepOrder (seen : List String) : List String → List String
  | [] => []
  | x :: xs =>
    if x ∈ seen then dedupKeepOrder seen xs
    else x :: dedupKeepOrder (x :: seen) xs

/-- Embedding of ContainerManager.get_image_for_language (lines 60-115) in
the Docker-available case.  The runtime lookup client.images.get is
modelled by the predicate availLocally (any lookup exception counts as not
found, as in the source); success returns the image and failure carries
the full deduplicated tried list, as in the raised ImageNotFound. -/
def get_image_for_language (configured : String) (availLocally : String → Bool) :
    Except (List String) String :=
  let unique_images := dedupKeepOrder [] (fallback_images configured)
  match unique_images.find? availLocally with
  | some image => .ok image
  | none => .error unique_images

/-! ## Container start polling (src/services/container/manager.py lines 331-364) -/

/-- The status-poll loop of start_container.  The loop runs while
total_wait < 2.0 in steps of 0.05, i.e. 40 iterations in exact
arithmetic; iteration i performs one container.reload and reads the
status (read i; none models a reload exception, which resets the
stability counter).  After the loop a final reload reads index 40 and
its result alone decides the outcome.  Structural recursion on the
remaining iteration count keeps the definition kernel-evaluable. -/
def startPollGo (read : Nat → Option String) : Nat → Nat → Nat → Bool
  | 0, _, _ => decide (read 40 = some "running")
  | fuel + 1, i, stable =>
    if read i = some "running" then
      if 3 ≤ stable + 1 then true
      else startPollGo read fuel (i + 1) (stable + 1)
    else startPollGo read fuel (i + 1) 0

/-- Embedding of the polling phase of ContainerManager.start_container
(lines 337-360), entered after container.start succeeded. -/
def start_container_poll (read : Nat → Option String) : Bool :=
  startPollGo read 40 0 0

/-! ## Batched force removal (src/services/container/manager.py lines 561-597) -/

/-- Chunking loop: containers[i : i + chunk_size] for i in steps of
chunk_size.  Fuel-indexed structural recursion; the fuel is the list
length, which bounds the number of chunks. -/
def chunkGo (n : Nat) : Nat → List Bool → List (List Bool)
  | 0, _ => []
  | _, [] => []
  | fuel + 1, x :: xs => (x :: xs.take (n - 1)) :: chunkGo n fuel (xs.drop (n - 1))

/-- The chunk partition of a list, chunk size n (n positive in the source;
the default is 50). -/
def chunkLists (n : Nat) (l : List Bool) : List (List Bool) :=
  chunkGo n l.length l

/-- Embedding of ContainerManager.force_kill_containers_batch
(lines 561-597).  Each container is represented by the outcome of its
force-remove call (kill_single never raises: it catches every exception
and returns False).  The asyncio.wait_for 30-second guard on each chunk
is modelled by chunkTimedOut: a timed-out chunk contributes no results,
as its gathered results are discarded by the except branch.  The
successes of the surviving chunks are summed, matching
sum(1 for r in results if r is True). -/
def force_kill_containers_batch (dockerAvailable : Bool) (outcomes : List Bool)
    (chunkTimedOut : Nat → Bool) (chunk_size : Nat) : Nat :=
  if outcomes = [] ∨ dockerAvailable = false then 0
  else
    ((chunkLists chunk_size outcomes).enum.map
      (fun p => if chunkTimedOut p.1 then 0 else p.2.countP (fun b => b))).sum

/-! ## In-memory archive transfer (src/services/container/manager.py lines 392-485) -/

/-- One member of a tar archive.  content is the byte payload that
tar.extractfile would yield; none models a member without extractable
file data, for which extractfile returns None. -/
structure TarMember where
  name : String
  content : Option (List UInt8)

/-- Embedding of ContainerManager.get_file_content_from_container
(lines 450-485).  The runtime call container.get_archive together with
the tar parse is modelled by fetchArchive: an error covers any raised
exception (runtime failure or unreadable archive), an ok carries the
archive members in order.  The source reads tar.next() and extracts the
first member, returning none when there is no member or no extractable
data. -/
def get_file_content_from_container (fetchArchive : Except String (List TarMember)) :
    Option (List UInt8) :=
  match fetchArchive with
  | .error _ => none
  | .ok members =>
    match members.head? with
    | none => none
    | some m => m.content

/-- The destination directory computed by copy_content_to_container
(line 422): the slash-join of all path segments but the last, with the
root directory as fallback when that join is empty. -/
def putDestDir (dest_path : String) : String :=
  let segs := splitOnChar '/' dest_path.toList
  let dirJoin := String.intercalate "/" ((segs.dropLast).map String.mk)
  if dirJoin = "" then "/" else dirJoin

/-- The single tar member written by copy_content_to_container: named by
the last path segment of dest_path and carrying the content bytes. -/
def putMemberOf (content : List UInt8) (dest_path : String) : TarMember :=
  ⟨String.mk ((splitOnChar '/' dest_path.toList).getLastD []), some content⟩

/-- Embedding of ContainerManager.copy_content_to_container
(lines 392-433).  The in-memory tar holds one member named by the last
path segment of dest_path; the runtime call container.put_archive to the
directory part is modelled by putArchive, whose error covers any raised
exception.  Success returns true, any failure returns false. -/
def copy_content_to_container (putArchive : String → TarMember → Except String Unit)
    (content : List UInt8) (dest_path : String) : Bool :=
  match putArchive (putDestDir dest_path) (putMemberOf content dest_path) with
  | .ok _ => true
  | .error _ => false

/-! ## Container creation config (src/services/container/manager.py lines 144-329) -/

/-- Whether needle occurs at the head of hay. -/
def subAt (needle hay : List Char) : Bool :=
  match needle, hay with
  | [], _ => true
  | _ :: _, [] => false
  | a :: as, b :: bs => a == b && subAt as bs

/-- Whether needle occurs anywhere in hay, modelling the Python in
operator on strings. -/
def hasSubStr (needle : List Char) : List Char → Bool
  | [] => needle.isEmpty
  | c :: rest => subAt needle (c :: rest) || hasSubStr needle rest

/-- The masked host path list built by create_container when
settings.container_mask_host_info is set (lines 188-203). -/
def maskedHostPaths : List String :=
  ["/proc/version", "/proc/version_signature", "/proc/cpuinfo",
   "/proc/meminfo", "/proc/kcore", "/proc/keys", "/proc/timer_list",
   "/proc/sched_debug", "/proc/kallsyms", "/proc/modules",
   "/sys/firmware", "/sys/kernel/security", "/etc/machine-id",
   "/var/lib/dbus/machine-id"]

/-- The read-only host path list built by create_container (lines 204-210). -/
def readonlyHostPaths : List String :=
  ["/proc/bus", "/proc/fs", "/proc/irq", "/proc/sys", "/proc/sysrq-trigger"]

/-- The hardening_config dict assembled by create_container
(lines 186-210): the two path lists under their keys when host-info
masking is enabled, empty otherwise. -/
def hardening_config (mask_host_info : Bool) : List (String × List String) :=
  if mask_host_info then
    [("masked_paths", maskedHostPaths), ("readonly_paths", readonlyHostPaths)]
  else []

/-- The settings fields consumed by create_container. -/
structure ContainerSettings where
  enable_wan_access : Bool
  container_mask_host_info : Bool
  max_memory_mb : Nat
  max_cpus : ℚ
  max_pids : Nat
  max_open_files : Nat
  docker_security_opt : List String
  docker_tmpfs : List (String × String)
  container_generic_hostname : String
  wan_network_name : String
  wan_dns_servers : List String

/-- A value of the keyword-argument dict passed to
client.containers.create, by shape. -/
inductive ConfigVal where
  | vStr : String → ConfigVal
  | vBool : Bool → ConfigVal
  | vInt : Int → ConfigVal
  | vStrList : List String → ConfigVal
  | vPairs : List (String × String) → ConfigVal
  | vUlimits : List (String × Int × Int) → ConfigVal

/-- Embedding of the container_config dict that
ContainerManager.create_container hands to client.containers.create
(lines 144-322), as the ordered key-value list of exactly the keyword
arguments the source sets.  Effects are parameters: rand8 is the random
name suffix uuid4().hex[:8], created_at the current ISO timestamp, and
seccompInline the inline JSON text of the seccomp profile when the
profile file was found and parsed (none when absent or unreadable, in
which case no seccomp option is appended).  Python float arithmetic for
nano_cpus is idealised as exact rational arithmetic. -/
def create_container_config (s : ContainerSettings) (image : String)
    (session_id : String) (command : Option String) (working_dir : String)
    (environment : List (String × String)) (language : Option String)
    (repl_mode : Bool) (rand8 : String) (created_at : String)
    (seccompInline : Option String) : List (String × ConfigVal) :=
  let container_name := "ci-exec-" ++ (session_id.take 12) ++ "-" ++ rand8
  let env := environment ++ (if repl_mode then [("REPL_MODE", "true")] else [])
  let use_wan_access := s.enable_wan_access
  let labels : List (String × String) :=
    [("com.code-interpreter.managed", "true"),
     ("com.code-interpreter.type", "execution"),
     ("com.code-interpreter.session-id", session_id),
     ("com.code-interpreter.language", language.getD "unknown"),
     ("com.code-interpreter.created-at", created_at),
     ("com.code-interpreter.repl-mode", if repl_mode then "true" else "false"),
     ("com.code-interpreter.wan-access", if use_wan_access then "true" else "false")]
  let isDlangImage :=
    hasSubStr ("dlang2/dmd-ubuntu".toList) (image.toLower.toList) ||
      image.toLower.startsWith "dlang2/"
  let container_command : ConfigVal :=
    match command with
    | some c => .vStr c
    | none =>
      if isDlangImage then .vStr "while true; do sleep 3600; done"
      else .vStrList ["tail", "-f", "/dev/null"]
  let entrypoint_override : Option (List String) :=
    match command with
    | some _ => none
    | none => if isDlangImage then some ["/bin/sh", "-c"] else none
  let security_opts := s.docker_security_opt ++
    (match seccompInline with
     | some j => ["seccomp=" ++ j]
     | none => [])
  let base : List (String × ConfigVal) :=
    [("image", .vStr image),
     ("name", .vStr container_name),
     ("working_dir", .vStr working_dir),
     ("detach", .vBool true),
     ("stdin_open", .vBool true),
     ("tty", .vBool (if repl_mode then false else true)),
     ("mem_limit", .vStr (toString s.max_memory_mb ++ "m")),
     ("memswap_limit", .vStr (toString s.max_memory_mb ++ "m")),
     ("nano_cpus", .vInt (s.max_cpus * 1000000000).floor),
     ("security_opt", .vStrList security_opts),
     ("cap_drop", .vStrList ["ALL"]),
     ("cap_add", .vStrList ["CHOWN", "DAC_OVERRIDE", "FOWNER", "SETGID", "SETUID"]),
     ("read_only", .vBool false),
     ("tmpfs", .vPairs s.docker_tmpfs),
     ("pids_limit", .vInt s.max_pids),
     ("ulimits", .vUlimits [("nofile", s.max_open_files, s.max_open_files)]),
     ("environment", .vPairs env),
     ("labels", .vPairs labels),
     ("hostname", .vStr s.container_generic_hostname),
     ("domainname", .vStr ""),
     ("command", container_command)]
  let withEntry := base ++
    (match entrypoint_override with
     | some ep => [("entrypoint", .vStrList ep)]
     | none => [])
  withEntry ++
    (if use_wan_access then
      [("network", .vStr s.wan_network_name),
       ("dns", .vStrList s.wan_dns_servers),
       ("dns_search", .vStrList []),
       ("dns_opt", .vStrList ["ndots:1"])]
    else [("network_mode", .vStr "none")])

/-! ## Helper lemmas -/

theorem severity_le_three (s : HealthStatus) : severity s ≤ 3 := by
  cases s <;> simp [severity]

theorem severity_inj {a b : HealthStatus} (h : severity a = severity b) : a = b := by
  cases a <;> cases b <;> simp_all [severity]

theorem worst_foldl_mem (l : List HealthStatus) (a : HealthStatus) :
    l.foldl (fun x y => if severity x < severity y then y else x) a ∈ l ∨
      l.foldl (fun x y => if severity x < severity y then y else x) a = a := by
  induction l generalizing a with
  | nil => exact Or.inr rfl
  | cons c t ih =>
    simp only [List.foldl_cons]
    rcases ih (if severity a < severity c then c else a) with h | h
    · exact Or.inl (List.mem_cons_of_mem _ h)
    · rw [h]
      by_cases hc : severity a < severity c
      · simp [hc]
      · simp [hc]

theorem worst_foldl_ub (l : List HealthStatus) (a : HealthStatus) :
    (severity a ≤ severity (l.foldl (fun x y => if severity x < severity y then y else x) a)) ∧
      ∀ x ∈ l, severity x ≤ severity (l.foldl (fun x y => if severity x < severity y then y else x) a) := by
  induction l generalizing a with
  | nil => simp
  | cons c t ih =>
    simp only [List.foldl_cons]
    obtain ⟨ih1, ih2⟩ := ih (if severity a < severity c then c else a)
    constructor
    · refine le_trans ?_ ih1
      by_cases hc : severity a < severity c
      · simp [hc]; omega
      · simp [hc]
    · intro x hx
      rcases List.mem_cons.mp hx with rfl | hx
      · refine le_trans ?_ ih1
        by_cases hc : severity a < severity x
        · simp [hc]
        · simp [hc]; omega
      · exact ih2 x hx

theorem worstStatus_mem {l : List HealthStatus} (h : l ≠ []) : worstStatus l ∈ l := by
  rcases worst_foldl_mem l .healthy with hm | he
  · exact hm
  · rcases l with _ | ⟨c, t⟩
    · exact absurd rfl h
    · have hub := (worst_foldl_ub (c :: t) .healthy).2 c (List.mem_cons_self c t)
      rw [worstStatus, he]
      rw [he] at hub
      simp only [severity] at hub
      have : c = .healthy := severity_inj (Nat.le_antisymm hub (Nat.zero_le _))
      rw [← this]
      exact List.mem_cons_self c t

theorem worstStatus_ub {l : List HealthStatus} {x : HealthStatus} (hx : x ∈ l) :
    severity x ≤ severity (worstStatus l) :=
  (worst_foldl_ub l .healthy).2 x hx

/-- Claim C5: for every non-empty map of per-service health results, the
overall health status computed by get_overall_status equals the worst
child status under the total order unhealthy > degraded > unknown >
healthy, that is, the member status of maximal severity. -/
theorem claim_C5 (statuses : List HealthStatus) (h : statuses ≠ []) :
    get_overall_status statuses = worstStatus statuses ∧
      worstStatus statuses ∈ statuses ∧
      ∀ x ∈ statuses, severity x ≤ severity (worstStatus statuses) := by
  refine ⟨?_, worstStatus_mem h, fun x hx => worstStatus_ub hx⟩
  have hmem := worstStatus_mem h
  by_cases hu : HealthStatus.unhealthy ∈ statuses
  · have h3 : severity (worstStatus statuses) = 3 :=
      Nat.le_antisymm (severity_le_three _) (worstStatus_ub hu)
    have : worstStatus statuses = .unhealthy := severity_inj (b := .unhealthy) h3
    simp [get_overall_status, h, hu, this]
  · by_cases hd : HealthStatus.degraded ∈ statuses
    · have hge : 2 ≤ severity (worstStatus statuses) := worstStatus_ub hd
      have hne : worstStatus statuses ≠ .unhealthy := fun he => hu (he ▸ hmem)
      have : worstStatus statuses = .degraded := by
        cases hw : worstStatus statuses <;> rw [hw] at hge hne <;> simp_all [severity]
      simp [get_overall_status, h, hu, hd, this]
    · by_cases ha : statuses.all (fun s => s = .healthy)
      · have : worstStatus statuses = .healthy := by
          have := List.all_eq_true.mp ha _ hmem
          simpa using this
        simp [get_overall_status, h, hu, hd, ha, this]
      · have hx : HealthStatus.unknown ∈ statuses := by
          have : ¬∀ x ∈ statuses, x = HealthStatus.healthy := by
            intro hc
            exact ha (List.all_eq_true.mpr (fun x hxm => by simp [hc x hxm]))
          push_neg at this
          obtain ⟨x, hxm, hxh⟩ := this
          have : x = HealthStatus.unknown := by
            cases x
            · exact absurd rfl hxh
            · exact absurd hxm hu
            · exact absurd hxm hd
            · rfl
          exact this ▸ hxm
        have hge : 1 ≤ severity (worstStatus statuses) := worstStatus_ub hx
        have hne1 : worstStatus statuses ≠ .unhealthy := fun he => hu (he ▸ hmem)
        have hne2 : worstStatus statuses ≠ .degraded := fun he => hd (he ▸ hmem)
        have : worstStatus statuses = .unknown := by
          cases hw : worstStatus statuses <;> rw [hw] at hge hne1 hne2 <;> simp_all [severity]
        simp [get_overall_status, h, hu, hd, ha, this]

/-- Witness for claim C5: a concrete non-empty result set whose overall
status is the worst child status, degraded. -/
theorem claim_C5_witness :
    get_overall_status [.healthy, .degraded, .unknown] =
        worstStatus [.healthy, .degraded, .unknown] ∧
      get_overall_status [.healthy, .degraded, .unknown] = .degraded :=
  ⟨(claim_C5 [.healthy, .degraded, .unknown] (by decide)).1, by decide⟩

/-- Claim C10: the pool configuration built from settings gives any
language outside the twelve known tags a size of 0, and
warmup_on_startup holds exactly when the configured size is strictly
positive and the global warmup flag is set; in particular a size-0
bucket is never warmed up. -/
theorem claim_C10 (s : PoolSettings) (language : String) :
    (language ∉ knownPoolLanguages →
      (PoolConfig.from_settings s language).size = 0 ∧
        (PoolConfig.from_settings s language).warmup_on_startup = false) ∧
    ((PoolConfig.from_settings s language).warmup_on_startup = true ↔
      0 < (PoolConfig.from_settings s language).size ∧
        s.pod_pool_warmup_on_startup = true) := by
  constructor
  · intro h
    have h' : ¬(language = "py" ∨ language = "js" ∨ language = "ts" ∨
        language = "go" ∨ language = "java" ∨ language = "c" ∨
        language = "cpp" ∨ language = "php" ∨ language = "rs" ∨
        language = "r" ∨ language = "f90" ∨ language = "d") := by
      simpa [knownPoolLanguages] using h
    push_neg at h'
    obtain ⟨h1, h2, h3, h4, h5, h6, h7, h8, h9, h10, h11, h12⟩ := h'
    simp [PoolConfig.from_settings, poolSizeFor, h1, h2, h3, h4, h5, h6, h7,
      h8, h9, h10, h11, h12]
  · simp [PoolConfig.from_settings, Bool.and_eq_true, decide_eq_true_eq]

/-- Witness for claim C10: the language tag hs is not among the twelve
known tags, so its pool config has size 0 and no warmup. -/
theorem claim_C10_witness :
    (PoolConfig.from_settings ⟨2, 2, 2, 2, 2, 2, 2, 2, 2, 2, 2, 2, true⟩ "hs").size = 0 ∧
      (PoolConfig.from_settings ⟨2, 2, 2, 2, 2, 2, 2, 2, 2, 2, 2, 2, true⟩ "hs").warmup_on_startup = false :=
  (claim_C10 ⟨2, 2, 2, 2, 2, 2, 2, 2, 2, 2, 2, 2, true⟩ "hs").1 (by decide)

/-- Claim C8: the reported CPU percentage equals the total-usage delta
divided by the system-usage delta, times the core count, times 100, and
is 0 whenever either delta is not positive. -/
theorem claim_C8 (cpu_stats precpu_stats : CpuStats) :
    (0 < cpu_stats.totalUsage - precpu_stats.totalUsage →
      0 < cpu_stats.system_cpu_usage.getD 0 - precpu_stats.system_cpu_usage.getD 0 →
      calculate_cpu_percent cpu_stats precpu_stats =
        (((cpu_stats.totalUsage - precpu_stats.totalUsage : Int) : ℚ) /
            ((cpu_stats.system_cpu_usage.getD 0 - precpu_stats.system_cpu_usage.getD 0 : Int) : ℚ)) *
          (cpu_stats.percpuList.length : ℚ) * 100) ∧
    ((cpu_stats.totalUsage - precpu_stats.totalUsage ≤ 0 ∨
        cpu_stats.system_cpu_usage.getD 0 - precpu_stats.system_cpu_usage.getD 0 ≤ 0) →
      calculate_cpu_percent cpu_stats precpu_stats = 0) := by
  constructor
  · intro h1 h2
    simp only [calculate_cpu_percent]
    rw [if_pos ⟨h2, h1⟩]
  · intro h
    simp only [calculate_cpu_percent]
    rw [if_neg]
    rintro ⟨ha, hb⟩
    rcases h with h | h
    · exact absurd hb (not_lt.mpr h)
    · exact absurd ha (not_lt.mpr h)

/-- Witness for claim C8: a concrete pair of samples with positive
deltas (100 and 500) and two cores reports 100/500 times 2 times 100,
i.e. 40 percent. -/
theorem claim_C8_witness :
    calculate_cpu_percent ⟨some ⟨some 200, some [3, 4]⟩, some 1000⟩
        ⟨some ⟨some 100, none⟩, some 500⟩ = 40 := by
  have h := (claim_C8 ⟨some ⟨some 200, some [3, 4]⟩, some 1000⟩
      ⟨some ⟨some 100, none⟩, some 500⟩).1 (by decide) (by decide)
  rw [h]
  norm_num [CpuStats.totalUsage, CpuStats.percpuList, CpuUsage.emptyDict]

/-- Claim C9: the in-memory archive transfers map every outcome of the
underlying runtime call to a plain return value: copy returns true
exactly on put success and false on any failure, and get returns the
bytes of the first archive member on success and none on any failure,
missing member, or member without extractable data.  Both embeddings are
total functions, reflecting that the source wraps the whole body in a
try block and never lets an exception escape. -/
theorem claim_C9 (putArchive : String → TarMember → Except String Unit)
    (content : List UInt8) (dest_path : String)
    (fetchArchive : Except String (List TarMember)) :
    (∀ u, putArchive (putDestDir dest_path) (putMemberOf content dest_path) = .ok u →
      copy_content_to_container putArchive content dest_path = true) ∧
    (∀ e, putArchive (putDestDir dest_path) (putMemberOf content dest_path) = .error e →
      copy_content_to_container putArchive content dest_path = false) ∧
    (∀ e, fetchArchive = .error e → get_file_content_from_container fetchArchive = none) ∧
    (fetchArchive = .ok [] → get_file_content_from_container fetchArchive = none) ∧
    (∀ m rest, fetchArchive = .ok (m :: rest) →
      get_file_content_from_container fetchArchive = m.content) := by
  refine ⟨?_, ?_, ?_, ?_, ?_⟩
  · intro u h
    simp [copy_content_to_container, h]
  · intro e h
    simp [copy_content_to_container, h]
  · intro e h
    simp [get_file_content_from_container, h]
  · intro h
    simp [get_file_content_from_container, h]
  · intro m rest h
    simp [get_file_content_from_container, h]

/-- Witness for claim C9: an always-succeeding put yields true, and a
fetched archive whose first member has no extractable data yields none. -/
theorem claim_C9_witness :
    copy_content_to_container (fun _ _ => .ok ()) [65] "/mnt/data/out.txt" = true ∧
      get_file_content_from_container (.ok [⟨"out.txt", none⟩]) = none :=
  ⟨(claim_C9 (fun _ _ => .ok ()) [65] "/mnt/data/out.txt" (.ok [])).1 () rfl,
   (claim_C9 (fun _ _ => .ok ()) [65] "/mnt/data/out.txt"
      (.ok [⟨"out.txt", none⟩])).2.2.2.2 ⟨"out.txt", none⟩ [] rfl⟩

theorem find?_dedupKeepOrder (p : String → Bool) :
    ∀ (l seen : List String), (∀ x ∈ seen, p x = false) →
      (dedupKeepOrder seen l).find? p = l.find? p := by
  intro l
  induction l with
  | nil => intro seen _; rfl
  | cons c t ih =>
    intro seen hseen
    by_cases hc : c ∈ seen
    · have hpc : p c = false := hseen c hc
      simp only [dedupKeepOrder, if_pos hc]
      rw [ih seen hseen, List.find?_cons, hpc]
    · simp only [dedupKeepOrder, if_neg hc]
      rw [List.find?_cons, List.find?_cons]
      cases hpc : p c
      · exact ih (c :: seen) (by
          intro x hx
          rcases List.mem_cons.mp hx with rfl | hx
          · exact hpc
          · exact hseen x hx)
      · rfl

theorem find?_eq_some_first {α : Type} (p : α → Bool) :
    ∀ (l : List α) (a : α), l.find? p = some a →
      ∃ i, l.get? i = some a ∧ p a = true ∧
        ∀ j, j < i → ∀ y, l.get? j = some y → p y = false := by
  intro l
  induction l with
  | nil => intro a h; simp at h
  | cons c t ih =>
    intro a h
    rw [List.find?_cons] at h
    cases hpc : p c
    · rw [hpc] at h
      obtain ⟨i, hi, hpa, hfirst⟩ := ih a h
      refine ⟨i + 1, by simpa using hi, hpa, ?_⟩
      intro j hj y hy
      cases j with
      | zero =>
        simp only [List.get?_cons_zero] at hy
        cases hy
        exact hpc
      | succ j' =>
        simp only [List.get?_cons_succ] at hy
        exact hfirst j' (by omega) y hy
    · rw [hpc] at h
      cases h
      exact ⟨0, rfl, hpc, fun j hj y hy => absurd hj (by omega)⟩

theorem mem_dedupKeepOrder :
    ∀ (l seen : List String) (x : String),
      x ∈ dedupKeepOrder seen l ↔ x ∈ l ∧ x ∉ seen := by
  intro l
  induction l with
  | nil => simp [dedupKeepOrder]
  | cons c t ih =>
    intro seen x
    by_cases hc : c ∈ seen
    · simp only [dedupKeepOrder, if_pos hc]
      rw [ih]
      constructor
      · rintro ⟨hx, hns⟩
        exact ⟨List.mem_cons_of_mem _ hx, hns⟩
      · rintro ⟨hx, hns⟩
        rcases List.mem_cons.mp hx with rfl | hx
        · exact absurd hc hns
        · exact ⟨hx, hns⟩
    · simp only [dedupKeepOrder, if_neg hc]
      constructor
      · intro hx
        rcases List.mem_cons.mp hx with rfl | hx
        · exact ⟨List.mem_cons_self _ _, hc⟩
        · obtain ⟨h1, h2⟩ := (ih (c :: seen) x).mp hx
          exact ⟨List.mem_cons_of_mem _ h1,
            fun hs => h2 (List.mem_cons_of_mem _ hs)⟩
      · rintro ⟨hx, hns⟩
        rcases List.mem_cons.mp hx with rfl | hx
        · exact List.mem_cons_self _ _
        · by_cases hxc : x = c
          · exact hxc ▸ List.mem_cons_self _ _
          · exact List.mem_cons_of_mem _ ((ih (c :: seen) x).mpr
              ⟨hx, by
                intro hs
                rcases List.mem_cons.mp hs with h | h
                · exact hxc h
                · exact hns h⟩)

theorem dedupKeepOrder_sublist :
    ∀ (l seen : List String), (dedupKeepOrder seen l).Sublist l := by
  intro l
  induction l with
  | nil => intro seen; exact List.Sublist.refl _
  | cons c t ih =>
    intro seen
    by_cases hc : c ∈ seen
    · simp only [dedupKeepOrder, if_pos hc]
      exact List.Sublist.cons _ (ih seen)
    · simp only [dedupKeepOrder, if_neg hc]
      exact List.Sublist.cons₂ _ (ih (c :: seen))

theorem dedupKeepOrder_nodup :
    ∀ (l seen : List String), (dedupKeepOrder seen l).Nodup := by
  intro l
  induction l with
  | nil => intro seen; exact List.nodup_nil
  | cons c t ih =>
    intro seen
    by_cases hc : c ∈ seen
    · simp only [dedupKeepOrder, if_pos hc]
      exact ih seen
    · simp only [dedupKeepOrder, if_neg hc]
      refine List.nodup_cons.mpr ⟨?_, ih (c :: seen)⟩
      intro hmem
      exact ((mem_dedupKeepOrder t (c :: seen) c).mp hmem).2 (List.mem_cons_self _ _)

/-- Claim C4: image resolution tries the candidates in the order
configured image, local-build prefix, public-registry prefix; on success
it returns the first candidate the runtime can locate locally (every
earlier candidate being unavailable), and on failure the error carries
the full tried list, which is the candidate list with duplicates removed
preserving order (an order-preserving duplicate-free sublist with the
same members). -/
theorem claim_C4 (configured : String) (availLocally : String → Bool) :
    fallback_images configured =
      [configured,
       "code-interpreter/" ++ lastSegmentStr configured,
       "ghcr.io/usnavy13/librecodeinterpreter/" ++ lastSegmentStr configured] ∧
    (∀ image, get_image_for_language configured availLocally = .ok image →
      availLocally image = true ∧
        ∃ i, (fallback_images configured).get? i = some image ∧
          ∀ j, j < i → ∀ y, (fallback_images configured).get? j = some y →
            availLocally y = false) ∧
    (∀ tried, get_image_for_language configured availLocally = .error tried →
      (∀ x ∈ fallback_images configured, availLocally x = false) ∧
        tried.Sublist (fallback_images configured) ∧ tried.Nodup ∧
        ∀ x, x ∈ tried ↔ x ∈ fallback_images configured) := by
  refine ⟨rfl, ?_, ?_⟩
  · intro image h
    simp only [get_image_for_language] at h
    rcases hf : (dedupKeepOrder [] (fallback_images configured)).find? availLocally with
      _ | img
    · rw [hf] at h; exact absurd h (by simp)
    · rw [hf] at h
      cases h
      rw [find?_dedupKeepOrder availLocally (fallback_images configured) [] (by simp)] at hf
      obtain ⟨i, hi, hp, hfirst⟩ := find?_eq_some_first availLocally _ _ hf
      exact ⟨hp, i, hi, hfirst⟩
  · intro tried h
    simp only [get_image_for_language] at h
    rcases hf : (dedupKeepOrder [] (fallback_images configured)).find? availLocally with
      _ | img
    · rw [hf] at h
      cases h
      rw [find?_dedupKeepOrder availLocally (fallback_images configured) [] (by simp)] at hf
      refine ⟨?_, dedupKeepOrder_sublist _ _, dedupKeepOrder_nodup _ _, ?_⟩
      · intro x hx
        have := List.find?_eq_none.mp hf x hx
        simpa using this
      · intro x
        rw [mem_dedupKeepOrder]
        simp
    · rw [hf] at h; exact absurd h (by simp)

/-- Witness for claim C4: with the configured image already at the
public-registry prefix, the tried list is deduplicated to two entries,
and when nothing is locally available resolution fails with exactly
those two candidates. -/
theorem claim_C4_witness :
    (∀ x ∈ fallback_images "ghcr.io/usnavy13/librecodeinterpreter/python:latest",
        (fun (_ : String) => false) x = false) ∧
      (["ghcr.io/usnavy13/librecodeinterpreter/python:latest",
        "code-interpreter/python:latest"] :
          List String).Sublist
        (fallback_images "ghcr.io/usnavy13/librecodeinterpreter/python:latest") :=
  have h := ((claim_C4 "ghcr.io/usnavy13/librecodeinterpreter/python:latest"
      (fun _ => false)).2.2
    ["ghcr.io/usnavy13/librecodeinterpreter/python:latest",
     "code-interpreter/python:latest"] rfl)
  ⟨h.1, h.2.1⟩

theorem chunkGo_flatten (n : Nat) (_hn : 0 < n) :
    ∀ (fuel : Nat) (l : List Bool), l.length ≤ fuel →
      (chunkGo n fuel l).flatten = l := by
  intro fuel
  induction fuel with
  | zero =>
    intro l hl
    rw [List.length_eq_zero.mp (Nat.le_zero.mp hl)]
    rfl
  | succ f ih =>
    intro l hl
    cases l with
    | nil => rfl
    | cons x xs =>
      simp only [chunkGo, List.flatten_cons]
      rw [ih (xs.drop (n - 1)) (by
        have := List.length_drop (n - 1) xs
        simp only [List.length_cons] at hl
        omega)]
      rw [List.cons_append, List.take_append_drop]

theorem chunkGo_length_le (n : Nat) (hn : 0 < n) :
    ∀ (fuel : Nat) (l : List Bool) (c : List Bool),
      c ∈ chunkGo n fuel l → c.length ≤ n := by
  intro fuel
  induction fuel with
  | zero => intro l c hc; simp [chunkGo] at hc
  | succ f ih =>
    intro l c hc
    cases l with
    | nil => simp [chunkGo] at hc
    | cons x xs =>
      simp only [chunkGo] at hc
      rcases List.mem_cons.mp hc with rfl | hc
      · simp only [List.length_cons, List.length_take]
        omega
      · exact ih _ c hc

/-- Claim C7: batched destruction partitions its input into chunks of at
most 50 whose concatenation is the input, and, whenever every chunk
completes inside its 30-second guard, returns exactly the number of
force-removals that succeeded. -/
theorem claim_C7 (outcomes : List Bool) (chunkTimedOut : Nat → Bool) :
    (∀ c ∈ chunkLists 50 outcomes, c.length ≤ 50) ∧
      (chunkLists 50 outcomes).flatten = outcomes ∧
      ((∀ i, chunkTimedOut i = false) →
        force_kill_containers_batch true outcomes chunkTimedOut 50 =
          outcomes.countP (fun b => b)) := by
  refine ⟨fun c hc => chunkGo_length_le 50 (by omega) _ _ c hc,
    chunkGo_flatten 50 (by omega) _ _ (le_refl _), ?_⟩
  intro hto
  by_cases hempty : outcomes = []
  · subst hempty; rfl
  · rw [force_kill_containers_batch, if_neg (by simp [hempty])]
    have hmap : ((chunkLists 50 outcomes).enum.map
        (fun p => if chunkTimedOut p.1 then 0 else p.2.countP (fun b => b))) =
        ((chunkLists 50 outcomes).enum.map (fun p => p.2.countP (fun b => b))) := by
      apply List.map_congr_left
      intro p _
      rw [hto p.1]
      simp
    rw [hmap]
    have hcomp : ((chunkLists 50 outcomes).enum.map
        (fun p => p.2.countP (fun b => b))) =
        ((chunkLists 50 outcomes).enum.map Prod.snd).map
          (fun c => c.countP (fun b => b)) := by
      rw [List.map_map]
      rfl
    rw [hcomp, List.enum_map_snd, ← List.countP_flatten]
    simp only [chunkLists]
    rw [chunkGo_flatten 50 (by omega) _ _ (le_refl _)]

/-- Witness for claim C7: four outcomes with three successes, chunk size
50, no chunk timing out: the batch returns 3. -/
theorem claim_C7_witness :
    force_kill_containers_batch true [true, false, true, true] (fun _ => false) 50 = 3 := by
  have h := (claim_C7 [true, false, true, true] (fun _ => false)).2.2 (fun i => rfl)
  rw [h]
  decide

theorem startPollGo_true_iff (read : Nat → Option String) :
    ∀ (fuel i stable : Nat), i + fuel = 40 →
      (startPollGo read fuel i stable = true ↔
        (∃ j, i ≤ j ∧ j + 2 < 40 ∧ read j = some "running" ∧
          read (j + 1) = some "running" ∧ read (j + 2) = some "running") ∨
        (2 ≤ stable ∧ i < 40 ∧ read i = some "running") ∨
        (stable = 1 ∧ i + 1 < 40 ∧ read i = some "running" ∧
          read (i + 1) = some "running") ∨
        read 40 = some "running") := by
  intro fuel
  induction fuel with
  | zero =>
    intro i stable hi
    have hi40 : i = 40 := by omega
    subst hi40
    simp only [startPollGo, decide_eq_true_eq]
    constructor
    · intro h
      exact Or.inr (Or.inr (Or.inr h))
    · rintro (⟨j, hj, hj2, _⟩ | ⟨_, hlt, _⟩ | ⟨_, hlt, _⟩ | h)
      · omega
      · omega
      · omega
      · exact h
  | succ f ih =>
    intro i stable hi
    have hilt : i < 40 := by omega
    have hstep : (i + 1) + f = 40 := by omega
    simp only [startPollGo]
    by_cases hR : read i = some "running"
    · rw [if_pos hR]
      by_cases hs : 3 ≤ stable + 1
      · rw [if_pos hs]
        have hs2 : 2 ≤ stable := by omega
        constructor
        · intro _
          exact Or.inr (Or.inl ⟨hs2, hilt, hR⟩)
        · intro _
          rfl
      · rw [if_neg hs]
        rw [ih (i + 1) (stable + 1) hstep]
        have hs1 : stable = 0 ∨ stable = 1 := by omega
        rcases hs1 with rfl | rfl
        · -- stable = 0: the recursive call carries stable = 1
          constructor
          · rintro (⟨j, hj, hj2, h1, h2, h3⟩ | ⟨hc, _⟩ | ⟨_, hlt2, h1, h2⟩ | h)
            · exact Or.inl ⟨j, by omega, hj2, h1, h2, h3⟩
            · omega
            · exact Or.inl ⟨i, le_refl i, by omega, hR, h1, h2⟩
            · exact Or.inr (Or.inr (Or.inr h))
          · rintro (⟨j, hj, hj2, h1, h2, h3⟩ | ⟨hc, _⟩ | ⟨hc, _⟩ | h)
            · rcases Nat.eq_or_lt_of_le hj with rfl | hj'
              · exact Or.inr (Or.inr (Or.inl ⟨rfl, by omega, h2, h3⟩))
              · exact Or.inl ⟨j, by omega, hj2, h1, h2, h3⟩
            · omega
            · omega
            · exact Or.inr (Or.inr (Or.inr h))
        · -- stable = 1: the recursive call carries stable = 2
          constructor
          · rintro (⟨j, hj, hj2, h1, h2, h3⟩ | ⟨_, hlt2, h1⟩ | ⟨hc, _⟩ | h)
            · exact Or.inl ⟨j, by omega, hj2, h1, h2, h3⟩
            · exact Or.inr (Or.inr (Or.inl ⟨rfl, hlt2, hR, h1⟩))
            · omega
            · exact Or.inr (Or.inr (Or.inr h))
          · rintro (⟨j, hj, hj2, h1, h2, h3⟩ | ⟨hc, _⟩ | ⟨_, hlt2, h1, h2⟩ | h)
            · rcases Nat.eq_or_lt_of_le hj with rfl | hj'
              · exact Or.inr (Or.inl ⟨by omega, by omega, h2⟩)
              · exact Or.inl ⟨j, by omega, hj2, h1, h2, h3⟩
            · omega
            · exact Or.inr (Or.inl ⟨le_refl 2, by omega, h2⟩)
            · exact Or.inr (Or.inr (Or.inr h))
    · rw [if_neg hR]
      rw [ih (i + 1) 0 hstep]
      constructor
      · rintro (⟨j, hj, hj2, h1, h2, h3⟩ | ⟨_, hc⟩ | ⟨hc, _⟩ | h)
        · exact Or.inl ⟨j, by omega, hj2, h1, h2, h3⟩
        · omega
        · omega
        · exact Or.inr (Or.inr (Or.inr h))
      · rintro (⟨j, hj, hj2, h1, h2, h3⟩ | ⟨_, _, h1⟩ | ⟨_, _, h1, _⟩ | h)
        · rcases Nat.eq_or_lt_of_le hj with rfl | hj'
          · exact absurd h1 hR
          · exact Or.inl ⟨j, by omega, hj2, h1, h2, h3⟩
        · exact absurd h1 hR
        · exact absurd h1 hR
        · exact Or.inr (Or.inr (Or.inr h))

/-- Counterexample to claim C3: a status trace that never reads running
during the forty polls of the 2-second window, yet whose final
post-window read is running.  start succeeds on it, so three consecutive
running reads inside the window are not required for success. -/
theorem claim_C3_counterexample :
    start_container_poll
        (fun i => if i = 40 then some "running" else some "created") = true ∧
      ∀ i, i < 40 →
        (fun i => if i = 40 then some "running" else some "created" :
          Nat → Option String) i ≠ some "running" := by
  decide

/-- Claim C3 as amended: the start poll succeeds exactly when either
three consecutive running reads occur within the forty 50 ms polls of
the 2-second window, or the single status read performed after the
window reports running.  In particular success is possible without three
consecutive in-window running reads, via the final read. -/
theorem claim_C3 (read : Nat → Option String) :
    start_container_poll read = true ↔
      (∃ j, j + 2 < 40 ∧ read j = some "running" ∧
        read (j + 1) = some "running" ∧ read (j + 2) = some "running") ∨
      read 40 = some "running" := by
  rw [start_container_poll, startPollGo_true_iff read 40 0 0 rfl]
  constructor
  · rintro (⟨j, _, hj2, h1, h2, h3⟩ | ⟨hc, _⟩ | ⟨hc, _⟩ | h)
    · exact Or.inl ⟨j, hj2, h1, h2, h3⟩
    · omega
    · omega
    · exact Or.inr h
  · rintro (⟨j, hj2, h1, h2, h3⟩ | h)
    · exact Or.inl ⟨j, Nat.zero_le j, hj2, h1, h2, h3⟩
    · exact Or.inr (Or.inr (Or.inr h))

theorem allowedChar_utf8Size {c : Char} (h : allowedChar c = true) :
    c.utf8Size = 1 := by
  simp only [allowedChar, Bool.or_eq_true, Bool.and_eq_true, decide_eq_true_eq,
    beq_iff_eq] at h
  have hv : c.val ≤ (127 : UInt32) := by
    rcases h with ((((⟨h1, h2⟩ | ⟨h1, h2⟩) | ⟨h1, h2⟩) | rfl) | rfl) | rfl
    · exact UInt32.le_trans (Char.le_def.mp h2) (by decide)
    · exact UInt32.le_trans (Char.le_def.mp h2) (by decide)
    · exact UInt32.le_trans (Char.le_def.mp h2) (by decide)
    · decide
    · decide
    · decide
  unfold Char.utf8Size
  have h127 : (UInt32.ofNatCore 127 Char.utf8Size.proof_1) = (127 : UInt32) := rfl
  simp only [h127]
  rw [if_pos hv]

theorem utf8Len_eq_length {l : List Char} (h : ∀ c ∈ l, allowedChar c = true) :
    utf8Len l = l.length := by
  induction l with
  | nil => rfl
  | cons c t ih =>
    simp only [utf8Len, List.map_cons, List.sum_cons] at *
    rw [allowedChar_utf8Size (h c (List.mem_cons_self c t)),
      ih (fun x hx => h x (List.mem_cons_of_mem c hx))]
    simp [List.length_cons]
    omega

theorem mem_replaceDisallowed {c : Char} {l : List Char}
    (h : c ∈ replaceDisallowed l) : allowedChar c = true := by
  simp only [replaceDisallowed, List.mem_map] at h
  obtain ⟨a, _, ha⟩ := h
  by_cases hall : allowedChar a
  · rw [if_pos hall] at ha
    exact ha ▸ hall
  · rw [if_neg hall] at ha
    rw [← ha]
    decide

theorem replaceDisallowed_length (l : List Char) :
    (replaceDisallowed l).length = l.length :=
  List.length_map l _

theorem replaceDisallowed_of_allowed {l : List Char}
    (h : ∀ c ∈ l, allowedChar c = true) : replaceDisallowed l = l := by
  simp only [replaceDisallowed]
  rw [List.map_congr_left (fun c hc => if_pos (h c hc))]
  exact List.map_id l

theorem mem_fixLeadingDot {c : Char} {l : List Char}
    (h : c ∈ fixLeadingDot l) : c = '_' ∨ c ∈ l := by
  simp only [fixLeadingDot] at h
  by_cases hd : l.head? = some '.'
  · rw [if_pos hd] at h
    rcases List.mem_cons.mp h with rfl | h
    · exact Or.inl rfl
    · exact Or.inr h
  · rw [if_neg hd] at h
    exact Or.inr h

theorem fixLeadingDot_head (l : List Char) :
    (fixLeadingDot l).head? ≠ some '.' := by
  simp only [fixLeadingDot]
  by_cases hd : l.head? = some '.'
  · rw [if_pos hd]
    simp
  · rw [if_neg hd]
    exact hd

theorem fixLeadingDot_ne_nil {l : List Char} (h : l ≠ []) :
    fixLeadingDot l ≠ [] := by
  simp only [fixLeadingDot]
  by_cases hd : l.head? = some '.'
  · rw [if_pos hd]
    simp
  · rw [if_neg hd]
    exact h

theorem fixLeadingDot_of_head {l : List Char} (h : l.head? ≠ some '.') :
    fixLeadingDot l = l := by
  simp only [fixLeadingDot, if_neg h]

theorem head?_take_pos {l : List Char} {n : Nat} (h : 0 < n) :
    (l.take n).head? = l.head? := by
  cases l with
  | nil => simp
  | cons c t =>
    cases n with
    | zero => omega
    | succ m => simp [List.take_succ_cons]

theorem head?_take_append_ne {l rest : List Char} {kp : Nat} (hne : l ≠ [])
    (hh : l.head? ≠ some '.') (hrest : rest.head? ≠ some '.') :
    ((l.take kp) ++ rest).head? ≠ some '.' := by
  cases kp with
  | zero => simpa using hrest
  | succ m =>
    rcases l with _ | ⟨c, t⟩
    · exact absurd rfl hne
    · have hc : c ≠ '.' := by
        intro h
        exact hh (by simp [h])
      simp [List.take_succ_cons, hc]

theorem mem_truncateWithRand {c : Char} {rand l : List Char}
    (h : c ∈ truncateWithRand rand l) :
    c ∈ l ∨ c = '-' ∨ c ∈ rand ∨ c = '.' := by
  simp only [truncateWithRand] at h
  by_cases hlen : l.length ≤ 255
  · rw [if_pos hlen] at h
    exact Or.inl h
  · rw [if_neg hlen] at h
    split at h
    · have h1 := List.mem_of_mem_take h
      rcases List.mem_append.mp h1 with h2 | h2
      · rcases List.mem_append.mp h2 with h3 | h3
        · exact Or.inl (List.mem_of_mem_take h3)
        · rcases List.mem_cons.mp h3 with rfl | h4
          · exact Or.inr (Or.inl rfl)
          · exact Or.inr (Or.inr (Or.inl h4))
      · rcases List.mem_cons.mp h2 with rfl | h3
        · exact Or.inr (Or.inr (Or.inr rfl))
        · exact Or.inl (List.mem_of_mem_drop h3)
    · have h1 := List.mem_of_mem_take h
      rcases List.mem_append.mp h1 with h2 | h2
      · exact Or.inl (List.mem_of_mem_take h2)
      · rcases List.mem_cons.mp h2 with rfl | h3
        · exact Or.inr (Or.inl rfl)
        · exact Or.inr (Or.inr (Or.inl h3))

theorem truncateWithRand_head {rand l : List Char} (hne : l ≠ [])
    (hh : l.head? ≠ some '.') :
    (truncateWithRand rand l).head? ≠ some '.' := by
  simp only [truncateWithRand]
  by_cases hlen : l.length ≤ 255
  · rw [if_pos hlen]
    exact hh
  · rw [if_neg hlen]
    split
    · rw [head?_take_pos (by omega), List.append_assoc]
      exact head?_take_append_ne hne hh (by simp)
    · rw [head?_take_pos (by omega)]
      exact head?_take_append_ne hne hh (by simp)

theorem truncateWithRand_length {rand l : List Char} :
    (truncateWithRand rand l).length ≤ 255 := by
  simp only [truncateWithRand]
  by_cases hlen : l.length ≤ 255
  · rw [if_pos hlen]
    exact hlen
  · rw [if_neg hlen]
    split
    · rw [List.length_take]
      omega
    · rw [List.length_take]
      omega

theorem truncateWithRand_ne_nil {rand l : List Char} (h : l ≠ []) :
    truncateWithRand rand l ≠ [] := by
  simp only [truncateWithRand]
  by_cases hlen : l.length ≤ 255
  · rw [if_pos hlen]
    exact h
  · rw [if_neg hlen]
    split
    · rw [ne_eq, List.take_eq_nil_iff]
      simp
    · rw [ne_eq, List.take_eq_nil_iff]
      simp

theorem replaceDisallowed_ne_nil {l : List Char} (h : l ≠ []) :
    replaceDisallowed l ≠ [] := by
  intro hc
  exact h (List.length_eq_zero.mp (by rw [← replaceDisallowed_length l, hc]; rfl))

theorem sanitize_allowed {rand : List Char} {x : Option (List Char)}
    (hr : ∀ c ∈ rand, allowedChar c = true) :
    ∀ c ∈ sanitize_filename rand x, allowedChar c = true := by
  intro c hc
  cases x with
  | none =>
    simp only [sanitize_filename, List.mem_singleton] at hc
    subst hc
    decide
  | some y =>
    simp only [sanitize_filename] at hc
    by_cases hb : pathBasename y = []
    · rw [if_pos hb] at hc
      simp only [List.mem_singleton] at hc
      subst hc
      decide
    · rw [if_neg hb] at hc
      rcases mem_truncateWithRand hc with h | rfl | h | rfl
      · rcases mem_fixLeadingDot h with rfl | h2
        · decide
        · exact mem_replaceDisallowed h2
      · decide
      · exact hr c h
      · decide

theorem sanitize_head {rand : List Char} {x : Option (List Char)} :
    (sanitize_filename rand x).head? ≠ some '.' := by
  cases x with
  | none => simp [sanitize_filename]
  | some y =>
    simp only [sanitize_filename]
    by_cases hb : pathBasename y = []
    · rw [if_pos hb]
      simp
    · rw [if_neg hb]
      exact truncateWithRand_head
        (fixLeadingDot_ne_nil (replaceDisallowed_ne_nil hb))
        (fixLeadingDot_head _)

theorem sanitize_length_le {rand : List Char} {x : Option (List Char)} :
    (sanitize_filename rand x).length ≤ 255 := by
  cases x with
  | none => simp [sanitize_filename]
  | some y =>
    simp only [sanitize_filename]
    by_cases hb : pathBasename y = []
    · rw [if_pos hb]
      simp
    · rw [if_neg hb]
      exact truncateWithRand_length

theorem sanitize_ne_nil {rand : List Char} {x : Option (List Char)} :
    sanitize_filename rand x ≠ [] := by
  cases x with
  | none => simp [sanitize_filename]
  | some y =>
    simp only [sanitize_filename]
    by_cases hb : pathBasename y = []
    · rw [if_pos hb]
      simp
    · rw [if_neg hb]
      exact truncateWithRand_ne_nil
        (fixLeadingDot_ne_nil (replaceDisallowed_ne_nil hb))

/-- Claim C2: for every input, including none and the empty string, the
sanitized name contains only characters of [A-Za-z0-9._-], does not
start with a dot, is at most 255 bytes long, and is non-empty; none or
empty input yields a lone underscore, a leading dot is prefixed with an
underscore, and over-long names are truncated to the shape
trunc-rand6.ext of exactly 255 bytes with the extension preserved.  The
random suffix rand is assumed to be six characters of the permitted
class, as a six-hex-digit suffix is. -/
theorem claim_C2 (rand : List Char) (x : Option (List Char))
    (hr6 : rand.length = 6) (hr : ∀ c ∈ rand, allowedChar c = true) :
    (∀ c ∈ sanitize_filename rand x, allowedChar c = true) ∧
    (sanitize_filename rand x).head? ≠ some '.' ∧
    utf8Len (sanitize_filename rand x) ≤ 255 ∧
    sanitize_filename rand x ≠ [] ∧
    sanitize_filename rand none = ['_'] ∧
    sanitize_filename rand (some []) = ['_'] ∧
    (∀ y t, replaceDisallowed (pathBasename y) = '.' :: t →
      ('.' :: t).length < 255 →
      sanitize_filename rand (some y) = '_' :: '.' :: t) ∧
    (∀ y k nm, nm = fixLeadingDot (replaceDisallowed (pathBasename y)) →
      255 < nm.length → lastDotIdx nm = some k →
      (nm.drop (k + 1)).length + 8 ≤ 255 →
      sanitize_filename rand (some y) =
        nm.take (255 - ((nm.drop (k + 1)).length + 8)) ++
          '-' :: rand ++ '.' :: nm.drop (k + 1) ∧
      (sanitize_filename rand (some y)).length = 255 ∧
      ('.' :: nm.drop (k + 1)) <:+ sanitize_filename rand (some y)) := by
  refine ⟨sanitize_allowed hr, sanitize_head, ?_, sanitize_ne_nil, rfl, rfl,
    ?_, ?_⟩
  · rw [utf8Len_eq_length (sanitize_allowed hr)]
    exact sanitize_length_le
  · intro y t ht hlen
    have hb : pathBasename y ≠ [] := by
      intro hb
      rw [hb] at ht
      exact List.cons_ne_nil '.' t ht.symm
    simp only [sanitize_filename]
    rw [if_neg hb, ht]
    have hfix : fixLeadingDot ('.' :: t) = '_' :: '.' :: t := by
      simp [fixLeadingDot]
    rw [hfix]
    simp only [truncateWithRand]
    rw [if_pos]
    simp only [List.length_cons] at hlen ⊢
    omega
  · intro y k nm hnm h255 hk hext
    have hb : pathBasename y ≠ [] := by
      intro hb
      rw [hb] at hnm
      have : nm = [] := by
        rw [hnm]
        rfl
      rw [this] at h255
      simp at h255
    have hsan : sanitize_filename rand (some y) = truncateWithRand rand nm := by
      simp only [sanitize_filename]
      rw [if_neg hb, hnm]
    have hkeeple : 255 - ((nm.drop (k + 1)).length + 8) ≤ nm.length := by omega
    have htakelen : (nm.take (255 - ((nm.drop (k + 1)).length + 8))).length =
        255 - ((nm.drop (k + 1)).length + 8) := by
      rw [List.length_take]
      omega
    have heq : truncateWithRand rand nm =
        nm.take (255 - ((nm.drop (k + 1)).length + 8)) ++
          '-' :: rand ++ '.' :: nm.drop (k + 1) := by
      simp only [truncateWithRand]
      rw [if_neg (by omega)]
      split
      · rename_i k' hk'
        rw [hk] at hk'
        cases hk'
        rw [hr6]
        apply List.take_of_length_le
        simp only [List.length_append, List.length_cons, List.length_take]
        omega
      · rename_i hk'
        rw [hk] at hk'
        exact absurd hk' (by simp)
    refine ⟨by rw [hsan, heq], ?_, ?_⟩
    · rw [hsan, heq]
      simp only [List.length_append, List.length_cons, htakelen, hr6]
      omega
    · rw [hsan, heq]
      exact ⟨nm.take (255 - ((nm.drop (k + 1)).length + 8)) ++ '-' :: rand, rfl⟩

/-- Witness for claim C2: the hidden-file input .hidden with the
six-character suffix abc123 sanitizes to _.hidden, exercising the
leading-dot rule. -/
theorem claim_C2_witness :
    sanitize_filename ['a', 'b', 'c', '1', '2', '3']
        (some ['.', 'h', 'i', 'd', 'd', 'e', 'n']) =
      ['_', '.', 'h', 'i', 'd', 'd', 'e', 'n'] :=
  (claim_C2 ['a', 'b', 'c', '1', '2', '3']
        (some ['.', 'h', 'i', 'd', 'd', 'e', 'n']) (by decide)
        (by decide)).2.2.2.2.2.2.1
    ['.', 'h', 'i', 'd', 'd', 'e', 'n'] ['h', 'i', 'd', 'd', 'e', 'n']
    (by decide) (by decide)

theorem splitOnChar_cons (sep c : Char) (cs : List Char) :
    splitOnChar sep (c :: cs) =
      match splitOnChar sep cs with
      | [] => [[c]]
      | cur :: rest => if c = sep then [] :: cur :: rest else (c :: cur) :: rest := rfl

theorem splitOnChar_of_no_sep {sep : Char} :
    ∀ (l : List Char), (∀ c ∈ l, c ≠ sep) → splitOnChar sep l = [l] := by
  intro l
  induction l with
  | nil => intro _; rfl
  | cons c cs ih =>
    intro h
    rw [splitOnChar_cons, ih (fun d hd => h d (List.mem_cons_of_mem c hd))]
    simp only [if_neg (h c (List.mem_cons_self c cs))]

/-- Claim C6: the filename sanitization function is idempotent — for
every string x, sanitize(sanitize(x)) = sanitize(x).  The first pass is
taken with any random suffix rand drawn from the permitted class
[A-Za-z0-9._-], as the real six-hex-digit suffix always is; the second
pass holds for an arbitrary suffix rand2, because its output contains
no slash, only permitted characters, no leading dot, and at most 255
characters, so the second pass strips no path component, replaces no
character, prefixes no underscore, and never reaches the truncation
branch where rand2 could appear. -/
theorem claim_C6 (rand rand2 : List Char) (x : Option (List Char))
    (hr : ∀ c ∈ rand, allowedChar c = true) :
    sanitize_filename rand2 (some (sanitize_filename rand x)) =
      sanitize_filename rand x := by
  have hall : ∀ c ∈ sanitize_filename rand x, allowedChar c = true :=
    sanitize_allowed hr
  have hnosep : ∀ c ∈ sanitize_filename rand x, c ≠ '/' := by
    intro c hc h
    have := hall c hc
    rw [h] at this
    exact absurd this (by decide)
  have hbase : pathBasename (sanitize_filename rand x) = sanitize_filename rand x := by
    simp only [pathBasename]
    rw [splitOnChar_of_no_sep _ hnosep]
    rfl
  conv_lhs => rw [sanitize_filename]
  rw [hbase, if_neg sanitize_ne_nil, replaceDisallowed_of_allowed hall,
    fixLeadingDot_of_head sanitize_head]
  simp only [truncateWithRand]
  rw [if_pos sanitize_length_le]

/-- Witness for claim C6: the name with a space sanitizes to a_b.txt,
and re-sanitizing that result with a fresh suffix ffffff returns it
unchanged; the six-hex-style first-pass suffix abc123 satisfies the
permitted-class hypothesis by evaluation. -/
theorem claim_C6_witness :
    sanitize_filename ['f', 'f', 'f', 'f', 'f', 'f']
        (some (sanitize_filename ['a', 'b', 'c', '1', '2', '3']
          (some ['a', ' ', 'b', '.', 't', 'x', 't']))) =
      sanitize_filename ['a', 'b', 'c', '1', '2', '3']
        (some ['a', ' ', 'b', '.', 't', 'x', 't']) ∧
    sanitize_filename ['a', 'b', 'c', '1', '2', '3']
        (some ['a', ' ', 'b', '.', 't', 'x', 't']) =
      ['a', '_', 'b', '.', 't', 'x', 't'] :=
  ⟨claim_C6 ['a', 'b', 'c', '1', '2', '3'] ['f', 'f', 'f', 'f', 'f', 'f']
    (some ['a', ' ', 'b', '.', 't', 'x', 't']) (by decide), by decide⟩

/-- Claim C1, settled against the code: with host-info masking enabled,
create_container does assemble the hardening dict with the masked host
path list and the read-only path list, but the container configuration
it hands to client.containers.create carries no masked_paths key, no
readonly_paths key, and no mounts key either, for every possible input
— the hardening dict is built and then discarded, so the runtime never
receives the path lists the claim (and the comment in the source, which
speaks of bind mounts under a mounts key) promises. -/
theorem claim_C1 (s : ContainerSettings) (image session_id : String)
    (command : Option String) (working_dir : String)
    (environment : List (String × String)) (language : Option String)
    (repl_mode : Bool) (rand8 created_at : String)
    (seccompInline : Option String)
    (hm : s.container_mask_host_info = true) :
    hardening_config s.container_mask_host_info =
      [("masked_paths", maskedHostPaths), ("readonly_paths", readonlyHostPaths)] ∧
    "masked_paths" ∉ (create_container_config s image session_id command
        working_dir environment language repl_mode rand8 created_at
        seccompInline).map Prod.fst ∧
    "readonly_paths" ∉ (create_container_config s image session_id command
        working_dir environment language repl_mode rand8 created_at
        seccompInline).map Prod.fst ∧
    "mounts" ∉ (create_container_config s image session_id command
        working_dir environment language repl_mode rand8 created_at
        seccompInline).map Prod.fst := by
  refine ⟨by simp [hardening_config, hm], ?_, ?_, ?_⟩
  all_goals
    intro hk
    simp only [create_container_config] at hk
    rcases command with _ | c
    · cases hdl : hasSubStr ("dlang2/dmd-ubuntu".toList) (image.toLower.toList) ||
          image.toLower.startsWith "dlang2/" <;>
        simp at hdl <;>
        cases hw : s.enable_wan_access <;>
        simp [hdl, hw] at hk
    · cases hw : s.enable_wan_access <;> simp [hw] at hk

/-- Witness for claim C1: a concrete hardened configuration whose
hardening dict holds both path lists while the created container config
has no masked_paths key. -/
theorem claim_C1_witness :
    hardening_config true =
      [("masked_paths", maskedHostPaths), ("readonly_paths", readonlyHostPaths)] ∧
    "masked_paths" ∉ (create_container_config
        ⟨false, true, 512, 1, 64, 256, [], [], "sandbox", "wan0", []⟩
        "python:latest" "sess" none "/mnt/data" [] (some "py") false
        "deadbeef" "2026-01-01T00:00:00" none).map Prod.fst :=
  have h := claim_C1 ⟨false, true, 512, 1, 64, 256, [], [], "sandbox", "wan0", []⟩
    "python:latest" "sess" none "/mnt/data" [] (some "py") false
    "deadbeef" "2026-01-01T00:00:00" none rfl
  ⟨h.1, h.2.1⟩

end K8sInterpreter
